import Mathlib

/-!
Verification of the SP1 recursion ASM compiler
(`recursion/compiler/src/asm/compiler.rs`).

The compiler lowers a structured IR (`DslIR`) into a list of basic blocks of
assembly instructions.  We embed the compiler shallowly:

* The base field `F` is BabyBear, `ZMod 2013265921`, matching the concrete
  `PrimeField32` instantiation used by the recursion compiler.
* Block labels and break labels are modelled as natural numbers (block
  indices / counter values).  The source stores them as field elements,
  converting with `from_canonical_usize` / `as_canonical_u32`, an exact
  round-trip on every reachable value; the spec likewise identifies a block's
  label with its index ("its own index is its label").
* The source keeps `basic_blocks : Vec<BasicBlock>` whose last entry is the
  current block.  We represent the closed prefix (`blocks`) and the current
  block (`cur`) separately; the full vector is `blocks ++ [cur]`.
* Fallible operations (panics on missing block labels, `unimplemented!()`
  arms, a `break` with no enclosing loop) are modelled with `Except`.
-/

namespace Sp1Asm

/-- The BabyBear prime `15 * 2^27 + 1`. -/
abbrev babyBearP : Nat := 2013265921

/-- The base field of the recursion machine. -/
abbrev F : Type := ZMod babyBearP

/-- The degree-4 extension field, modelled as its coordinates; the compiler
only moves extension values around as data, no extension arithmetic occurs in
the fragment verified here. -/
abbrev EF : Type := F × F × F × F

/-- The offset at which the stack starts (`STACK_START_OFFSET`). -/
def STACK_START_OFFSET : Int := 16

/-- The heap pointer address (`HEAP_PTR`). -/
def HEAP_PTR : Int := -4

/-- The address of the scratch cell A0 (`A0`). -/
def A0 : Int := -8

/-- `STACK_SIZE` lives in the external crate `sp1_recursion_core::runtime`,
which is not part of this repository's sources.  Modelled from the spec: only
its role (the initial heap-pointer value is `STACK_SIZE + 4`) matters to the
properties below, not its numeric value. -/
def STACK_SIZE : Nat := 1048576

/-- A symbolic machine word (`Var`); the index is the per-kind creation
counter. -/
structure Var where
  idx : Nat
  deriving DecidableEq, Repr

/-- A symbolic base-field element (`Felt`). -/
structure Felt where
  idx : Nat
  deriving DecidableEq, Repr

/-- A symbolic extension-field element (`Ext`). -/
structure Ext where
  idx : Nat
  deriving DecidableEq, Repr

/-- Gets the frame pointer for a var (`Var::fp`). -/
def Var.fp (v : Var) : Int :=
  -((v.idx : Int) * 3 + 1 + STACK_START_OFFSET)

/-- Gets the frame pointer for a felt (`Felt::fp`). -/
def Felt.fp (f : Felt) : Int :=
  -((f.idx : Int) * 3 + 2 + STACK_START_OFFSET)

/-- Gets the frame pointer for an extension element (`Ext::fp`). -/
def Ext.fp (e : Ext) : Int :=
  -((e.idx : Int) * 3 + STACK_START_OFFSET)

/-- A pointer (`Ptr`): a `Var` whose stored value is a heap address. -/
structure Ptr where
  address : Var
  deriving DecidableEq, Repr

/-- Gets the frame pointer for a pointer (`Ptr::fp`). -/
def Ptr.fp (p : Ptr) : Int := p.address.fp

/-- A compile-time-or-symbolic size (`Usize`). -/
inductive Usize where
  | const (n : Nat)
  | var (v : Var)
  deriving DecidableEq, Repr

/-- An array operand: dynamic (heap pointer + length) or statically fixed.
The fixed variant's element payload is irrelevant to the compiler fragment
verified here (every `Fixed` operand hits an `unimplemented!()` arm). -/
inductive Array where
  | dyn (p : Ptr) (len : Usize)
  | fixed
  deriving DecidableEq, Repr

/-- A right-hand side that is either an addressed value or a constant
(`ValueOrConst`). -/
inductive ValueOrConst where
  | val (fp : Int)
  | const (c : F)
  | extVal (fp : Int)
  | extConst (c : EF)
  deriving DecidableEq, Repr

/-- The assembly instructions emitted by the compiler fragment under
verification (`AsmInstruction`).  Branch/jump operands carry block labels. -/
inductive AsmInstruction where
  | ImmF (addr : Int) (v : F)
  | AddF (dst lhs rhs : Int)
  | AddFI (dst lhs : Int) (rhs : F)
  | SubF (dst lhs rhs : Int)
  | MulF (dst lhs rhs : Int)
  | MulFI (dst lhs : Int) (rhs : F)
  | Bne (label : Nat) (lhs rhs : Int)
  | BneI (label : Nat) (lhs : Int) (rhs : F)
  | Beq (label : Nat) (lhs rhs : Int)
  | BeqI (label : Nat) (lhs : Int) (rhs : F)
  | BneE (label : Nat) (lhs rhs : Int)
  | BneEI (label : Nat) (lhs : Int) (rhs : EF)
  | BeqE (label : Nat) (lhs rhs : Int)
  | BeqEI (label : Nat) (lhs : Int) (rhs : EF)
  | BneInc (label : Nat) (lhs rhs : Int)
  | BneIInc (label : Nat) (lhs : Int) (rhs : F)
  | Break (label : Nat)
  | j (label : Nat)
  | Trap
  | HintBits (dst src : Int)
  deriving DecidableEq, Repr

/-- A basic block: an ordered instruction sequence (`BasicBlock`). -/
abbrev BasicBlock : Type := List AsmInstruction

/-- The structured IR consumed by the compiler (`DslIR`), restricted to the
constructors whose compilation the claims are about, together with
representative straight-line operations. -/
inductive DslIR where
  | immV (dst : Var) (src : F)
  | immF (dst : Felt) (src : F)
  | addV (dst lhs rhs : Var)
  | addVI (dst lhs : Var) (rhs : F)
  | subV (dst lhs rhs : Var)
  | mulV (dst lhs rhs : Var)
  | ifEq (lhs rhs : Var) (thenOps elseOps : List DslIR)
  | ifNe (lhs rhs : Var) (thenOps elseOps : List DslIR)
  | ifEqI (lhs : Var) (rhs : F) (thenOps elseOps : List DslIR)
  | ifNeI (lhs : Var) (rhs : F) (thenOps elseOps : List DslIR)
  | breakOp
  | forLoop (start finish : Usize) (stepSize : F) (loopVar : Var)
      (body : List DslIR)
  | assertEqV (lhs rhs : Var)
  | assertEqVI (lhs : Var) (rhs : F)
  | assertNeV (lhs rhs : Var)
  | assertNeVI (lhs : Var) (rhs : F)
  | alloc (ptr : Ptr) (len : Usize) (size : Nat)
  | hintBitsU (dst : Array) (src : Usize)
  | hintBitsF (dst : Array) (src : Felt)
  | hintBitsV (dst : Array) (src : Var)
  | num2BitsF (dst : Array) (src : Felt)
  | num2BitsV (dst : Array) (src : Var)
  | reverseBitsLen (dst src : Var) (len : Nat)
  | twoAdicGenerator (dst : Felt) (bits : Nat)
  | expUsizeV (dst lhs : Var) (rhs : Usize)
  | expUsizeF (dst lhs : Felt) (rhs : Usize)
  | errorOp
  deriving Repr

/-- Compilation failures: the model of the source's panics
(`unimplemented!()`, a missing block at patch time, `break` with no label
set). -/
inductive CompileError where
  | unimplemented (op : String)
  | missingBlock (label : Nat)
  | noBreakLabel
  deriving DecidableEq, Repr

/-- The assembly compiler state (`AsmCompiler`).  `blocks` is the closed
prefix of `basic_blocks`; `cur` is its last element (the current block). -/
structure AsmCompiler where
  blocks : List BasicBlock
  cur : BasicBlock
  breakLabel : Option Nat
  breakLabelMap : List (Nat × Nat)
  breakCounter : Nat
  containsBreak : List Nat
  functionLabels : List (String × Nat)
  deriving DecidableEq, Repr

namespace AsmCompiler

/-- Creates a new `AsmCompiler` (`AsmCompiler::new`): a single empty basic
block and empty break bookkeeping. -/
def new : AsmCompiler :=
  { blocks := [], cur := [], breakLabel := none, breakLabelMap := [],
    breakCounter := 0, containsBreak := [], functionLabels := [] }

/-- All basic blocks, in order: the closed prefix followed by the current
block. -/
def allBlocks (c : AsmCompiler) : List BasicBlock := c.blocks ++ [c.cur]

/-- The number of basic blocks. -/
def blockCount (c : AsmCompiler) : Nat := c.blocks.length + 1

/-- The label of the current block (`block_label`): the index of the last
block, i.e. the length of the closed prefix. -/
def blockLabel (c : AsmCompiler) : Nat := c.blocks.length

/-- Appends an instruction to the current block (`push`). -/
def push (i : AsmInstruction) (c : AsmCompiler) : AsmCompiler :=
  { c with cur := c.cur ++ [i] }

/-- Opens a fresh current block (`basic_block`), closing the previous one. -/
def basicBlock (c : AsmCompiler) : AsmCompiler :=
  { c with blocks := c.blocks ++ [c.cur], cur := [] }

/-- Appends an instruction to the block with the given label
(`push_to_block`); aborts, naming the missing label, when no block with that
index exists. -/
def pushToBlock (label : Nat) (i : AsmInstruction) (c : AsmCompiler) :
    Except CompileError AsmCompiler :=
  if h : label < c.blocks.length then
    .ok { c with blocks := c.blocks.set label (c.blocks[label] ++ [i]) }
  else if label = c.blocks.length then
    .ok (push i c)
  else
    .error (.missingBlock label)

/-- Allocates a fresh break label (`new_break_label`), recording it as the
active one. -/
def newBreakLabel (c : AsmCompiler) : Nat × AsmCompiler :=
  (c.breakCounter,
   { c with breakCounter := c.breakCounter + 1,
            breakLabel := some c.breakCounter })

/-- Records that the block with the given label contains a `break`
(the `contains_break` set; insertion deduplicates). -/
def insertContainsBreak (label : Nat) (c : AsmCompiler) : AsmCompiler :=
  if label ∈ c.containsBreak then c
  else { c with containsBreak := c.containsBreak ++ [label] }

end AsmCompiler

/-- One step of the deferred break rewriting: a `Break` carrying the resolved
label becomes an unconditional jump to the after-loop block; every other
instruction is untouched. -/
def rewriteInstr (breakLab afterLab : Nat) : AsmInstruction → AsmInstruction
  | .Break l => if l = breakLab then .j afterLab else .Break l
  | i => i

/-- Rewrites every `Break` for the resolved label inside one block. -/
def rewriteBlock (breakLab afterLab : Nat) (b : BasicBlock) : BasicBlock :=
  b.map (rewriteInstr breakLab afterLab)

/-- Rewrites, in every block recorded in `contains_break`, the `Break`
instructions carrying the resolved label into jumps to the after-loop block.
A recorded label always indexes an existing block, so the out-of-range
fall-through is unreachable. -/
def rewriteBreaks (breakLab afterLab : Nat) (c : AsmCompiler) : AsmCompiler :=
  c.containsBreak.foldl
    (fun c' blk =>
      if h : blk < c'.blocks.length then
        let b := rewriteBlock breakLab afterLab c'.blocks[blk]
        { c' with blocks := c'.blocks.set blk b }
      else if blk = c'.blocks.length then
        { c' with cur := rewriteBlock breakLab afterLab c'.cur }
      else c')
    c

namespace IfCompiler

/-- Branch-opcode selection (`IfCompiler::branch`): a direct lookup from
(operand form, equality sense) to the physical branch opcode.  The emitted
opcode tests the *negation* of the `is_eq` sense, so that the fall-through
path is the `then` case. -/
def branch (lhs : Int) (rhs : ValueOrConst) (isEq : Bool) (block : Nat) :
    AsmInstruction :=
  match rhs, isEq with
  | .const c, true => .BneI block lhs c
  | .const c, false => .BeqI block lhs c
  | .extConst c, true => .BneEI block lhs c
  | .extConst c, false => .BeqEI block lhs c
  | .val r, true => .Bne block lhs r
  | .val r, false => .Beq block lhs r
  | .extVal r, true => .BneE block lhs r
  | .extVal r, false => .BeqE block lhs r

/-- The single-branch If compilation (`IfCompiler::then`): open a then-block,
compile the body into it, open the after block, and patch the branching block
with the (negated) conditional branch to the after block. -/
def thenBranch (lhs : Int) (rhs : ValueOrConst) (isEq : Bool)
    (f : AsmCompiler → Except CompileError AsmCompiler) (c : AsmCompiler) :
    Except CompileError AsmCompiler :=
  let ifBranchingBlock := c.blockLabel
  let c := c.basicBlock
  do
    let c ← f c
    let c := c.basicBlock
    let afterIfBlock := c.blockLabel
    AsmCompiler.pushToBlock ifBranchingBlock
      (branch lhs rhs isEq afterIfBlock) c

/-- The two-branch If compilation (`IfCompiler::then_or_else`): compile the
then branch, remember its terminal block, compile the else branch, patch the
branching block with the (negated) branch to the else block, open the main
flow block, and jump to it from the then branch's terminal block. -/
def thenOrElse (lhs : Int) (rhs : ValueOrConst) (isEq : Bool)
    (thenF elseF : AsmCompiler → Except CompileError AsmCompiler)
    (c : AsmCompiler) : Except CompileError AsmCompiler :=
  let ifBranchingBlock := c.blockLabel
  let c := c.basicBlock
  do
    let c ← thenF c
    let lastIfBlock := c.blockLabel
    let c := c.basicBlock
    let elseBlock := c.blockLabel
    let c ← elseF c
    let c ← AsmCompiler.pushToBlock ifBranchingBlock
      (branch lhs rhs isEq elseBlock) c
    let c := c.basicBlock
    let mainFlowBlock := c.blockLabel
    AsmCompiler.pushToBlock lastIfBlock (.j mainFlowBlock) c

end IfCompiler

namespace AsmCompiler

/-- `AsmCompiler::assert`: a single-branch If whose body is a trap.  Note the
`is_eq` flag is the sense on which compilation *skips* the trap. -/
def assert (lhs : Int) (rhs : ValueOrConst) (isEq : Bool) (c : AsmCompiler) :
    Except CompileError AsmCompiler :=
  IfCompiler.thenBranch lhs rhs isEq (fun c' => .ok (c'.push .Trap)) c

/-- `AsmCompiler::alloc`: bind the pointer to the current heap-pointer value,
then advance the heap pointer by `len * size` — two immediate instructions
for a constant length, a multiply-then-add through the scratch cell `A0` for
a variable length. -/
def alloc (ptr : Ptr) (len : Usize) (size : Nat) (c : AsmCompiler) :
    AsmCompiler :=
  let sizeF : F := (size : F)
  match len with
  | .const l =>
    let lenF : F := (l : F)
    (c.push (.AddFI ptr.fp HEAP_PTR 0)).push
      (.AddFI HEAP_PTR HEAP_PTR (lenF * sizeF))
  | .var l =>
    ((c.push (.AddFI ptr.fp HEAP_PTR 0)).push
      (.MulFI A0 l.fp sizeF)).push (.AddF HEAP_PTR HEAP_PTR A0)

end AsmCompiler

namespace ForCompiler

/-- `ForCompiler::set_loop_var`: immediate load for a constant start,
register copy for a variable start. -/
def setLoopVar (start : Usize) (loopVar : Var) (c : AsmCompiler) :
    AsmCompiler :=
  match start with
  | .const s => c.push (.ImmF loopVar.fp (s : F))
  | .var v => c.push (.AddFI loopVar.fp v.fp 0)

/-- The back-branch instruction of the loop condition: branch to the loop
body's start while the loop variable differs from the (constant or variable)
end bound. -/
def condBranch (finish : Usize) (loopVar : Var) (loopLabel : Nat) :
    AsmInstruction :=
  match finish with
  | .const e => .BneI loopLabel loopVar.fp (e : F)
  | .var e => .Bne loopLabel loopVar.fp e.fp

/-- The fused increment-and-branch terminal opcode used for unit step size. -/
def incBranch (finish : Usize) (loopVar : Var) (loopLabel : Nat) :
    AsmInstruction :=
  match finish with
  | .const e => .BneIInc loopLabel loopVar.fp (e : F)
  | .var e => .BneInc loopLabel loopVar.fp e.fp

/-- `ForCompiler::jump_to_loop_body`: the plain back-branch of the loop
condition, against a constant or variable end bound. -/
def jumpToLoopBody (finish : Usize) (loopVar : Var) (loopLabel : Nat)
    (c : AsmCompiler) : AsmCompiler :=
  c.push (condBranch finish loopVar loopLabel)

/-- `ForCompiler::jump_to_loop_body_inc`: the fused increment-and-branch
terminal opcode used for unit step size. -/
def jumpToLoopBodyInc (finish : Usize) (loopVar : Var) (loopLabel : Nat)
    (c : AsmCompiler) : AsmCompiler :=
  c.push (incBranch finish loopVar loopLabel)

/-- `ForCompiler::for_each`: loop linearization with deferred break
patching. -/
def forEach (start finish : Usize) (stepSize : F) (loopVar : Var)
    (f : Var → AsmCompiler → Except CompileError AsmCompiler)
    (c : AsmCompiler) : Except CompileError AsmCompiler :=
  -- Set the loop variable to the start of the range.
  let c := setLoopVar start loopVar c
  -- Save the label of the for loop call.
  let loopCallLabel := c.blockLabel
  -- Initialize a break label for this loop.
  let (breakLab, c) := c.newBreakLabel
  let c := { c with breakLabel := some breakLab }
  -- A basic block for the loop body.
  let c := c.basicBlock
  -- Save the loop body label for the loop condition.
  let loopLabel := c.blockLabel
  do
    -- The loop body.
    let c ← f loopVar c
    let c :=
      if stepSize = 1 then
        jumpToLoopBodyInc finish loopVar loopLabel c
      else
        -- Increment the loop variable.
        c.push (.AddFI loopVar.fp loopVar.fp stepSize)
    -- Add a basic block for the loop condition.
    let c := c.basicBlock
    -- Jump to loop body if the loop condition still holds.
    let c := jumpToLoopBody finish loopVar loopLabel c
    -- Add a jump instruction to the loop condition in the loop call block.
    let label := c.blockLabel
    let c ← AsmCompiler.pushToBlock loopCallLabel (.j label) c
    -- Initialize the after loop block and resolve the break label.
    let c := c.basicBlock
    let afterLabel := c.blockLabel
    let c := { c with breakLabelMap := c.breakLabelMap ++ [(breakLab, afterLabel)] }
    -- Replace the break instructions with jumps to the after loop block.
    .ok (rewriteBreaks breakLab afterLabel c)

end ForCompiler

/-- The heap-pointer initialization emitted at the start of a `build` call
whose current block is block 0: set the heap pointer to the immediate
`STACK_SIZE + 4`. -/
def heapInitInstr : AsmInstruction :=
  .ImmF HEAP_PTR ((STACK_SIZE + 4 : Nat) : F)

/-- The prologue of `AsmCompiler::build`: emit the heap-pointer
initialization exactly when the current block label is zero. -/
def heapInit (c : AsmCompiler) : AsmCompiler :=
  if c.blockLabel = 0 then c.push heapInitInstr else c

/-- The dispatch loop of `AsmCompiler::build` over the operation list.  Every
nested body compilation in the source is a recursive `build` invocation,
written here as `buildOps body (heapInit c)` — definitionally the same as
`build body c` — to keep the recursion over a single function. -/
def buildOps : List DslIR → AsmCompiler → Except CompileError AsmCompiler
  | [], c => .ok c
  | op :: ops, c => do
    let c ←
      match op with
      | .immV dst src => .ok (c.push (.ImmF dst.fp src))
      | .immF dst src => .ok (c.push (.ImmF dst.fp src))
      | .addV dst lhs rhs => .ok (c.push (.AddF dst.fp lhs.fp rhs.fp))
      | .addVI dst lhs rhs => .ok (c.push (.AddFI dst.fp lhs.fp rhs))
      | .subV dst lhs rhs => .ok (c.push (.SubF dst.fp lhs.fp rhs.fp))
      | .mulV dst lhs rhs => .ok (c.push (.MulF dst.fp lhs.fp rhs.fp))
      | .ifEq lhs rhs thenOps elseOps =>
        if elseOps.isEmpty then
          IfCompiler.thenBranch lhs.fp (.val rhs.fp) true
            (fun c' => buildOps thenOps (heapInit c')) c
        else
          IfCompiler.thenOrElse lhs.fp (.val rhs.fp) true
            (fun c' => buildOps thenOps (heapInit c'))
            (fun c' => buildOps elseOps (heapInit c')) c
      | .ifNe lhs rhs thenOps elseOps =>
        if elseOps.isEmpty then
          IfCompiler.thenBranch lhs.fp (.val rhs.fp) false
            (fun c' => buildOps thenOps (heapInit c')) c
        else
          IfCompiler.thenOrElse lhs.fp (.val rhs.fp) false
            (fun c' => buildOps thenOps (heapInit c'))
            (fun c' => buildOps elseOps (heapInit c')) c
      | .ifEqI lhs rhs thenOps elseOps =>
        if elseOps.isEmpty then
          IfCompiler.thenBranch lhs.fp (.const rhs) true
            (fun c' => buildOps thenOps (heapInit c')) c
        else
          IfCompiler.thenOrElse lhs.fp (.const rhs) true
            (fun c' => buildOps thenOps (heapInit c'))
            (fun c' => buildOps elseOps (heapInit c')) c
      | .ifNeI lhs rhs thenOps elseOps =>
        if elseOps.isEmpty then
          IfCompiler.thenBranch lhs.fp (.const rhs) false
            (fun c' => buildOps thenOps (heapInit c')) c
        else
          IfCompiler.thenOrElse lhs.fp (.const rhs) false
            (fun c' => buildOps thenOps (heapInit c'))
            (fun c' => buildOps elseOps (heapInit c')) c
      | .breakOp =>
        match c.breakLabel with
        | none => .error .noBreakLabel
        | some label =>
          let currentBlock := c.blockLabel
          let c := c.insertContainsBreak currentBlock
          .ok (c.push (.Break label))
      | .forLoop start finish stepSize loopVar body =>
        ForCompiler.forEach start finish stepSize loopVar
          (fun _ c' => buildOps body (heapInit c')) c
      | .assertEqV lhs rhs => c.assert lhs.fp (.val rhs.fp) false
      | .assertEqVI lhs rhs => c.assert lhs.fp (.const rhs) false
      | .assertNeV lhs rhs => c.assert lhs.fp (.val rhs.fp) true
      | .assertNeVI lhs rhs => c.assert lhs.fp (.const rhs) true
      | .alloc ptr len size => .ok (c.alloc ptr len size)
      | .hintBitsU dst src =>
        match dst, src with
        | .dyn dst _, .var src => .ok (c.push (.HintBits dst.fp src.fp))
        | _, _ => .error (.unimplemented "HintBitsU")
      | .hintBitsF dst src =>
        match dst with
        | .dyn dst _ => .ok (c.push (.HintBits dst.fp src.fp))
        | _ => .error (.unimplemented "HintBitsF")
      | .hintBitsV dst src =>
        match dst with
        | .dyn dst _ => .ok (c.push (.HintBits dst.fp src.fp))
        | _ => .error (.unimplemented "HintBitsV")
      | .num2BitsF _ _ => .error (.unimplemented "Num2BitsF")
      | .num2BitsV _ _ => .error (.unimplemented "Num2BitsV")
      | .reverseBitsLen _ _ _ => .error (.unimplemented "ReverseBitsLen")
      | .twoAdicGenerator _ _ => .error (.unimplemented "TwoAdicGenerator")
      | .expUsizeV _ _ _ => .error (.unimplemented "ExpUsizeV")
      | .expUsizeF _ _ _ => .error (.unimplemented "ExpUsizeF")
      | .errorOp => .ok (c.push .Trap)
    buildOps ops c
termination_by ops _ => sizeOf ops
decreasing_by all_goals (simp_wf <;> omega)

/-- `AsmCompiler::build`: the heap-pointer prologue followed by the dispatch
loop. -/
def AsmCompiler.build (ops : List DslIR) (c : AsmCompiler) :
    Except CompileError AsmCompiler :=
  buildOps ops (heapInit c)

/-! ### Observation functions on compiler states -/

/-- Whether an instruction writes an immediate into the heap-pointer cell,
i.e. is a heap-pointer initialization. -/
def isHeapSet : AsmInstruction → Bool
  | .ImmF addr _ => addr = HEAP_PTR
  | _ => false

/-- Whether an instruction is an unresolved abstract `Break` marker. -/
def isBreakInstr : AsmInstruction → Bool
  | .Break _ => true
  | _ => false

/-- The number of heap-pointer initializations across all blocks. -/
def heapSetCount (c : AsmCompiler) : Nat :=
  (c.allBlocks.map (fun b => b.countP isHeapSet)).sum

/-- The number of unresolved `Break` markers across all blocks. -/
def breakInstrCount (c : AsmCompiler) : Nat :=
  (c.allBlocks.map (fun b => b.countP isBreakInstr)).sum

/-- The first instruction of block 0. -/
def firstInstr (c : AsmCompiler) : Option AsmInstruction :=
  match c.blocks with
  | [] => c.cur.head?
  | b :: _ => b.head?

lemma var_fp_ne_heapPtr (v : Var) : v.fp ≠ HEAP_PTR := by
  simp only [Var.fp, HEAP_PTR, STACK_START_OFFSET]
  omega

lemma felt_fp_ne_heapPtr (f : Felt) : f.fp ≠ HEAP_PTR := by
  simp only [Felt.fp, HEAP_PTR, STACK_START_OFFSET]
  omega

lemma heapInit_of_blocks_ne_nil {c : AsmCompiler} (h : c.blocks ≠ []) :
    heapInit c = c := by
  have : c.blocks.length ≠ 0 := by
    simpa [List.length_eq_zero] using h
  simp [heapInit, AsmCompiler.blockLabel, this]

lemma basicBlock_blocks_ne_nil (c : AsmCompiler) :
    c.basicBlock.blocks ≠ [] := by
  simp [AsmCompiler.basicBlock]

/-- A helper for sums over a list with one entry replaced. -/
lemma sum_set_add {l : List Nat} {n : Nat} (h : n < l.length) (a : Nat) :
    (l.set n a).sum + l[n] = l.sum + a := by
  induction l generalizing n with
  | nil => simp at h
  | cons x xs ih =>
    cases n with
    | zero => simp [List.set]; omega
    | succ m =>
      have hm : m < xs.length := by simpa using h
      have := ih hm
      simp [List.set]
      omega

lemma isHeapSet_rewriteInstr (bl al : Nat) (i : AsmInstruction) :
    isHeapSet (rewriteInstr bl al i) = isHeapSet i := by
  cases i <;> first
    | rfl
    | (simp only [rewriteInstr]; split <;> rfl)

lemma countP_rewriteBlock_heap (bl al : Nat) (b : BasicBlock) :
    (rewriteBlock bl al b).countP isHeapSet = b.countP isHeapSet := by
  rw [rewriteBlock, List.countP_map]
  exact List.countP_congr fun i _ => by
    simp [Function.comp, isHeapSet_rewriteInstr]

lemma head?_rewriteBlock (bl al : Nat) (b : BasicBlock) :
    (rewriteBlock bl al b).head? = b.head?.map (rewriteInstr bl al) := by
  simp [rewriteBlock]

lemma getLast?_rewriteBlock (bl al : Nat) (b : BasicBlock) :
    (rewriteBlock bl al b).getLast? = b.getLast?.map (rewriteInstr bl al) := by
  simp [rewriteBlock, List.getLast?_map]

lemma rewriteInstr_heapInitInstr (bl al : Nat) :
    rewriteInstr bl al heapInitInstr = heapInitInstr := rfl

/-! ### A preservation invariant for the dispatch loop

`Preserves c c'` records the facts about a compilation step from state `c`
to state `c'` needed for the claims: the number of heap-pointer
initializations is unchanged, the block list only grows, and the first
instruction of block 0 is kept in place. -/

def Preserves (c c' : AsmCompiler) : Prop :=
  heapSetCount c' = heapSetCount c ∧
  c.blocks.length ≤ c'.blocks.length ∧
  (firstInstr c = some heapInitInstr → firstInstr c' = some heapInitInstr)

lemma Preserves.refl (c : AsmCompiler) : Preserves c c :=
  ⟨rfl, le_rfl, id⟩

lemma Preserves.trans {a b c : AsmCompiler} (h1 : Preserves a b)
    (h2 : Preserves b c) : Preserves a c :=
  ⟨h2.1.trans h1.1, h1.2.1.trans h2.2.1, fun h => h2.2.2 (h1.2.2 h)⟩

lemma heapSetCount_eq (c : AsmCompiler) :
    heapSetCount c = (c.blocks.map (fun b => b.countP isHeapSet)).sum
      + c.cur.countP isHeapSet := by
  simp [heapSetCount, AsmCompiler.allBlocks]

lemma push_preserves {i : AsmInstruction} (h : isHeapSet i = false)
    (c : AsmCompiler) : Preserves c (c.push i) := by
  refine ⟨?_, le_rfl, ?_⟩
  · simp [heapSetCount_eq, AsmCompiler.push, List.countP_append,
      List.countP_cons, h]
  · intro hf
    cases hb : c.blocks with
    | nil =>
      simp only [firstInstr, AsmCompiler.push, hb] at hf ⊢
      cases hcur : c.cur with
      | nil => rw [hcur] at hf; simp at hf
      | cons a t =>
        rw [hcur] at hf
        simpa using hf
    | cons b bs =>
      simpa only [firstInstr, AsmCompiler.push, hb] using hf

lemma basicBlock_preserves (c : AsmCompiler) : Preserves c c.basicBlock := by
  refine ⟨?_, ?_, ?_⟩
  · simp [heapSetCount_eq, AsmCompiler.basicBlock]
  · simp [AsmCompiler.basicBlock]
  · intro hf
    cases hb : c.blocks with
    | nil => simpa only [firstInstr, AsmCompiler.basicBlock, hb] using hf
    | cons b bs => simpa only [firstInstr, AsmCompiler.basicBlock, hb] using hf

/-- Replacing block `l` by a block with the same head preserves the first
instruction of block 0. -/
lemma firstInstr_set {c : AsmCompiler} {l : Nat} {b : BasicBlock}
    (hl : l < c.blocks.length)
    (hh : c.blocks[l].head? = some heapInitInstr →
      b.head? = some heapInitInstr)
    (hf : firstInstr c = some heapInitInstr) :
    firstInstr { c with blocks := c.blocks.set l b } = some heapInitInstr := by
  cases hb : c.blocks with
  | nil => rw [hb] at hl; simp at hl
  | cons b0 bs =>
    cases l with
    | zero =>
      simp only [firstInstr, hb, List.set] at hf ⊢
      exact hh (by simp [hb, hf])
    | succ m =>
      simp only [firstInstr, hb, List.set] at hf ⊢
      exact hf

lemma pushToBlock_preserves {l : Nat} {i : AsmInstruction}
    (h : isHeapSet i = false) {c c' : AsmCompiler}
    (hok : AsmCompiler.pushToBlock l i c = .ok c') : Preserves c c' := by
  unfold AsmCompiler.pushToBlock at hok
  split at hok
  · next hl =>
    have hc' : c' = { c with blocks := c.blocks.set l (c.blocks[l] ++ [i]) } := by
      cases hok; rfl
    subst hc'
    refine ⟨?_, by simp, ?_⟩
    · have hmap : (c.blocks.set l (c.blocks[l] ++ [i])).map
          (fun b => b.countP isHeapSet)
          = (c.blocks.map (fun b => b.countP isHeapSet)).set l
            (c.blocks[l].countP isHeapSet) := by
        simp [List.map_set, List.countP_append, List.countP_cons, h]
      have hl' : l < (c.blocks.map (fun b => b.countP isHeapSet)).length := by
        simpa using hl
      have hsum := sum_set_add hl' (c.blocks[l].countP isHeapSet)
      have hget : (c.blocks.map (fun b => b.countP isHeapSet))[l]
          = c.blocks[l].countP isHeapSet := by
        simp
      rw [hget] at hsum
      rw [heapSetCount_eq, heapSetCount_eq]
      dsimp only
      rw [hmap]
      omega
    · exact firstInstr_set hl (fun hx => by
        cases hbl : c.blocks[l] with
        | nil => simp [hbl] at hx
        | cons a t =>
          rw [hbl] at hx
          simp at hx
          simp [hx])
  · split at hok
    · have hc' : c' = c.push i := by cases hok; rfl
      subst hc'
      exact push_preserves h c
    · cases hok

lemma rewriteStep_preserves (bl al : Nat) (c : AsmCompiler) (blk : Nat) :
    Preserves c
      (if h : blk < c.blocks.length then
        { c with blocks := c.blocks.set blk (rewriteBlock bl al c.blocks[blk]) }
      else if blk = c.blocks.length then
        { c with cur := rewriteBlock bl al c.cur }
      else c) := by
  split
  · next hl =>
    refine ⟨?_, by simp, ?_⟩
    · have hmap : (c.blocks.set blk (rewriteBlock bl al c.blocks[blk])).map
          (fun b => b.countP isHeapSet)
          = (c.blocks.map (fun b => b.countP isHeapSet)).set blk
            (c.blocks[blk].countP isHeapSet) := by
        simp [List.map_set, countP_rewriteBlock_heap]
      have hl' : blk < (c.blocks.map (fun b => b.countP isHeapSet)).length := by
        simpa using hl
      have hsum := sum_set_add hl' (c.blocks[blk].countP isHeapSet)
      have hget : (c.blocks.map (fun b => b.countP isHeapSet))[blk]
          = c.blocks[blk].countP isHeapSet := by
        simp
      rw [hget] at hsum
      rw [heapSetCount_eq, heapSetCount_eq]
      dsimp only
      rw [hmap]
      omega
    · exact fun hf => firstInstr_set hl (fun hx => by
        rw [head?_rewriteBlock, hx]
        rfl) hf
  · split
    · refine ⟨?_, le_rfl, ?_⟩
      · simp [heapSetCount_eq, countP_rewriteBlock_heap]
      · intro hf
        cases hb : c.blocks with
        | nil =>
          simp only [firstInstr, hb] at hf ⊢
          rw [head?_rewriteBlock, hf]
          rfl
        | cons b0 bs =>
          simpa only [firstInstr, hb] using hf
    · exact Preserves.refl c

lemma rewriteBreaks_preserves (bl al : Nat) (c : AsmCompiler) :
    Preserves c (rewriteBreaks bl al c) := by
  rw [rewriteBreaks]
  generalize c.containsBreak = L
  induction L generalizing c with
  | nil => exact Preserves.refl c
  | cons blk L ih =>
    rw [List.foldl_cons]
    exact (rewriteStep_preserves bl al c blk).trans (ih _)

lemma preserves_of_blocks_eq {c c' : AsmCompiler} (hb : c'.blocks = c.blocks)
    (hc : c'.cur = c.cur) : Preserves c c' := by
  have h1 : firstInstr c' = firstInstr c := by
    simp only [firstInstr, hb, hc]
  have h2 : heapSetCount c' = heapSetCount c := by
    rw [heapSetCount_eq, heapSetCount_eq, hb, hc]
  exact ⟨h2, le_of_eq (by rw [hb]), fun hf => by rw [h1]; exact hf⟩

lemma newBreakLabel_preserves (c : AsmCompiler) :
    Preserves c c.newBreakLabel.2 :=
  preserves_of_blocks_eq rfl rfl

lemma insertContainsBreak_preserves (l : Nat) (c : AsmCompiler) :
    Preserves c (c.insertContainsBreak l) := by
  rw [AsmCompiler.insertContainsBreak]
  split
  · exact Preserves.refl c
  · exact preserves_of_blocks_eq rfl rfl

lemma isHeapSet_immF_of_ne {a : Int} (h : a ≠ HEAP_PTR) (v : F) :
    isHeapSet (.ImmF a v) = false := by
  simp [isHeapSet, h]

lemma isHeapSet_branch (lhs : Int) (rhs : ValueOrConst) (isEq : Bool)
    (blk : Nat) : isHeapSet (IfCompiler.branch lhs rhs isEq blk) = false := by
  cases rhs <;> cases isEq <;> rfl

lemma isHeapSet_condBranch (finish : Usize) (lv : Var) (l : Nat) :
    isHeapSet (ForCompiler.condBranch finish lv l) = false := by
  cases finish <;> rfl

lemma isHeapSet_incBranch (finish : Usize) (lv : Var) (l : Nat) :
    isHeapSet (ForCompiler.incBranch finish lv l) = false := by
  cases finish <;> rfl

lemma setLoopVar_preserves (start : Usize) (lv : Var) (c : AsmCompiler) :
    Preserves c (ForCompiler.setLoopVar start lv c) := by
  cases start with
  | const s =>
    exact push_preserves (isHeapSet_immF_of_ne (var_fp_ne_heapPtr lv) _) c
  | var v => exact push_preserves (by rfl) c

lemma alloc_preserves (ptr : Ptr) (len : Usize) (size : Nat)
    (c : AsmCompiler) : Preserves c (c.alloc ptr len size) := by
  cases len with
  | const l => exact (push_preserves (by rfl) c).trans (push_preserves (by rfl) _)
  | var l =>
    exact ((push_preserves (by rfl) c).trans (push_preserves (by rfl) _)).trans
      (push_preserves (by rfl) _)

lemma thenBranch_preserves {lhs : Int} {rhs : ValueOrConst} {isEq : Bool}
    {f : AsmCompiler → Except CompileError AsmCompiler} {c c' : AsmCompiler}
    (hf : ∀ x, x.blocks ≠ [] → ∀ y, f x = .ok y → Preserves x y)
    (hok : IfCompiler.thenBranch lhs rhs isEq f c = .ok c') :
    Preserves c c' := by
  rw [IfCompiler.thenBranch] at hok
  cases hfc : f c.basicBlock with
  | error e =>
    rw [hfc] at hok
    simp only [Bind.bind, Except.bind] at hok
    exact Except.noConfusion hok
  | ok y =>
    rw [hfc] at hok
    simp only [Bind.bind, Except.bind] at hok
    exact ((basicBlock_preserves c).trans
      ((hf _ (basicBlock_blocks_ne_nil c) y hfc).trans
        (basicBlock_preserves y))).trans
      (pushToBlock_preserves (isHeapSet_branch _ _ _ _) hok)

lemma assert_preserves {lhs : Int} {rhs : ValueOrConst} {isEq : Bool}
    {c c' : AsmCompiler} (hok : c.assert lhs rhs isEq = .ok c') :
    Preserves c c' := by
  refine thenBranch_preserves (fun x _ y hy => ?_) hok
  cases hy
  exact push_preserves (by rfl) x

lemma thenOrElse_preserves {lhs : Int} {rhs : ValueOrConst} {isEq : Bool}
    {thenF elseF : AsmCompiler → Except CompileError AsmCompiler}
    {c c' : AsmCompiler}
    (hthen : ∀ x, x.blocks ≠ [] → ∀ y, thenF x = .ok y → Preserves x y)
    (helse : ∀ x, x.blocks ≠ [] → ∀ y, elseF x = .ok y → Preserves x y)
    (hok : IfCompiler.thenOrElse lhs rhs isEq thenF elseF c = .ok c') :
    Preserves c c' := by
  rw [IfCompiler.thenOrElse] at hok
  cases h1 : thenF c.basicBlock with
  | error e =>
    rw [h1] at hok
    simp only [Bind.bind, Except.bind] at hok
    exact Except.noConfusion hok
  | ok y =>
    rw [h1] at hok
    simp only [Bind.bind, Except.bind] at hok
    cases h2 : elseF y.basicBlock with
    | error e =>
      simp only [h2, Bind.bind, Except.bind] at hok
      exact Except.noConfusion hok
    | ok z =>
      simp only [h2, Bind.bind, Except.bind] at hok
      cases h3 : AsmCompiler.pushToBlock c.blockLabel
          (IfCompiler.branch lhs rhs isEq y.basicBlock.blockLabel) z with
      | error e =>
        simp only [h3, Bind.bind, Except.bind] at hok
        exact Except.noConfusion hok
      | ok w =>
        simp only [h3, Bind.bind, Except.bind] at hok
        exact (((((basicBlock_preserves c).trans
          (hthen _ (basicBlock_blocks_ne_nil c) y h1)).trans
          (basicBlock_preserves y)).trans
          ((helse _ (basicBlock_blocks_ne_nil y) z h2).trans
            (pushToBlock_preserves (isHeapSet_branch _ _ _ _) h3))).trans
          (basicBlock_preserves w)).trans
          (pushToBlock_preserves (by rfl) hok)

lemma breakFields_preserves (c : AsmCompiler) (bl : Option Nat) (k : Nat) :
    Preserves c
      { blocks := c.blocks, cur := c.cur, breakLabel := bl,
        breakLabelMap := c.breakLabelMap, breakCounter := k,
        containsBreak := c.containsBreak,
        functionLabels := c.functionLabels } :=
  preserves_of_blocks_eq rfl rfl

lemma forEach_preserves {start finish : Usize} {stepSize : F} {lv : Var}
    {f : Var → AsmCompiler → Except CompileError AsmCompiler}
    {c c' : AsmCompiler}
    (hf : ∀ x, x.blocks ≠ [] → ∀ y, f lv x = .ok y → Preserves x y)
    (hok : ForCompiler.forEach start finish stepSize lv f c = .ok c') :
    Preserves c c' := by
  rw [ForCompiler.forEach, AsmCompiler.newBreakLabel] at hok
  simp only [Bind.bind, Except.bind] at hok
  split at hok
  · exact Except.noConfusion hok
  · next v heq =>
    split at hok
    · exact Except.noConfusion hok
    · next w hpb =>
      cases hok
      have pbody := hf _ (basicBlock_blocks_ne_nil _) v heq
      have p1 := (((setLoopVar_preserves start lv c).trans
        (breakFields_preserves _ _ _)).trans
        (basicBlock_preserves _)).trans pbody
      have pstep : Preserves v (if stepSize = 1 then
          ForCompiler.jumpToLoopBodyInc finish lv
            (AsmCompiler.basicBlock
              { blocks := (ForCompiler.setLoopVar start lv c).blocks,
                cur := (ForCompiler.setLoopVar start lv c).cur,
                breakLabel := some (ForCompiler.setLoopVar start lv c).breakCounter,
                breakLabelMap := (ForCompiler.setLoopVar start lv c).breakLabelMap,
                breakCounter := (ForCompiler.setLoopVar start lv c).breakCounter + 1,
                containsBreak := (ForCompiler.setLoopVar start lv c).containsBreak,
                functionLabels := (ForCompiler.setLoopVar start lv c).functionLabels }).blockLabel
            v
        else v.push (.AddFI lv.fp lv.fp stepSize)) := by
        split
        · exact push_preserves (isHeapSet_incBranch _ _ _) v
        · exact push_preserves (by rfl) v
      have p2 := (p1.trans pstep).trans (basicBlock_preserves _)
      have p4 := p2.trans ((push_preserves (isHeapSet_condBranch _ _ _) _).trans
        (pushToBlock_preserves (by rfl) hpb))
      exact (p4.trans ((basicBlock_preserves w).trans
        (preserves_of_blocks_eq rfl rfl))).trans
        (rewriteBreaks_preserves _ _ _)

lemma hf_of_ih {ops : List DslIR}
    (ih : ∀ x y, buildOps ops (heapInit x) = .ok y → Preserves (heapInit x) y) :
    ∀ x, x.blocks ≠ [] → ∀ y, buildOps ops (heapInit x) = .ok y →
      Preserves x y := by
  intro x hx y hy
  have h := ih x y hy
  rwa [heapInit_of_blocks_ne_nil hx] at h

lemma push_case {ops : List DslIR} {i : AsmInstruction}
    (hflag : isHeapSet i = false) {c c' : AsmCompiler}
    (ih : ∀ x y, buildOps ops x = .ok y → Preserves x y)
    (h : buildOps ops (c.push i) = .ok c') : Preserves c c' :=
  (push_preserves hflag c).trans (ih _ _ h)

theorem buildOps_preserves :
    ∀ (ops : List DslIR) (c c' : AsmCompiler),
      buildOps ops c = .ok c' → Preserves c c' := by
  intro ops c
  induction ops, c using buildOps.induct with
  | case1 c =>
    intro c' h
    simp only [buildOps] at h
    cases h
    exact Preserves.refl _
  | case2 ops c dst src ih =>
    intro c' h
    simp only [buildOps, Bind.bind, Except.bind] at h
    exact push_case (isHeapSet_immF_of_ne (var_fp_ne_heapPtr dst) _) ih h
  | case3 ops c dst src ih =>
    intro c' h
    simp only [buildOps, Bind.bind, Except.bind] at h
    exact push_case (isHeapSet_immF_of_ne (felt_fp_ne_heapPtr dst) _) ih h
  | case4 ops c dst lhs rhs ih =>
    intro c' h
    simp only [buildOps, Bind.bind, Except.bind] at h
    exact push_case (by rfl) ih h
  | case5 ops c dst lhs rhs ih =>
    intro c' h
    simp only [buildOps, Bind.bind, Except.bind] at h
    exact push_case (by rfl) ih h
  | case6 ops c dst lhs rhs ih =>
    intro c' h
    simp only [buildOps, Bind.bind, Except.bind] at h
    exact push_case (by rfl) ih h
  | case7 ops c dst lhs rhs ih =>
    intro c' h
    simp only [buildOps, Bind.bind, Except.bind] at h
    exact push_case (by rfl) ih h
  | case8 ops c lhs rhs thn els hEmpty ih1 ih2 =>
    intro c' h
    simp only [buildOps] at h
    rw [if_pos hEmpty] at h
    simp only [Bind.bind, Except.bind] at h
    split at h
    · exact Except.noConfusion h
    · next mid hmid =>
      exact (thenBranch_preserves (hf_of_ih ih2) hmid).trans (ih1 _ _ h)
  | case9 ops c lhs rhs thn els hNe ih1 ih2 ih3 =>
    intro c' h
    simp only [buildOps] at h
    rw [if_neg hNe] at h
    simp only [Bind.bind, Except.bind] at h
    split at h
    · exact Except.noConfusion h
    · next mid hmid =>
      exact (thenOrElse_preserves (hf_of_ih ih2) (hf_of_ih ih3) hmid).trans
        (ih1 _ _ h)
  | case10 ops c lhs rhs thn els hEmpty ih1 ih2 =>
    intro c' h
    simp only [buildOps] at h
    rw [if_pos hEmpty] at h
    simp only [Bind.bind, Except.bind] at h
    split at h
    · exact Except.noConfusion h
    · next mid hmid =>
      exact (thenBranch_preserves (hf_of_ih ih2) hmid).trans (ih1 _ _ h)
  | case11 ops c lhs rhs thn els hNe ih1 ih2 ih3 =>
    intro c' h
    simp only [buildOps] at h
    rw [if_neg hNe] at h
    simp only [Bind.bind, Except.bind] at h
    split at h
    · exact Except.noConfusion h
    · next mid hmid =>
      exact (thenOrElse_preserves (hf_of_ih ih2) (hf_of_ih ih3) hmid).trans
        (ih1 _ _ h)
  | case12 ops c lhs rhs thn els hEmpty ih1 ih2 =>
    intro c' h
    simp only [buildOps] at h
    rw [if_pos hEmpty] at h
    simp only [Bind.bind, Except.bind] at h
    split at h
    · exact Except.noConfusion h
    · next mid hmid =>
      exact (thenBranch_preserves (hf_of_ih ih2) hmid).trans (ih1 _ _ h)
  | case13 ops c lhs rhs thn els hNe ih1 ih2 ih3 =>
    intro c' h
    simp only [buildOps] at h
    rw [if_neg hNe] at h
    simp only [Bind.bind, Except.bind] at h
    split at h
    · exact Except.noConfusion h
    · next mid hmid =>
      exact (thenOrElse_preserves (hf_of_ih ih2) (hf_of_ih ih3) hmid).trans
        (ih1 _ _ h)
  | case14 ops c lhs rhs thn els hEmpty ih1 ih2 =>
    intro c' h
    simp only [buildOps] at h
    rw [if_pos hEmpty] at h
    simp only [Bind.bind, Except.bind] at h
    split at h
    · exact Except.noConfusion h
    · next mid hmid =>
      exact (thenBranch_preserves (hf_of_ih ih2) hmid).trans (ih1 _ _ h)
  | case15 ops c lhs rhs thn els hNe ih1 ih2 ih3 =>
    intro c' h
    simp only [buildOps] at h
    rw [if_neg hNe] at h
    simp only [Bind.bind, Except.bind] at h
    split at h
    · exact Except.noConfusion h
    · next mid hmid =>
      exact (thenOrElse_preserves (hf_of_ih ih2) (hf_of_ih ih3) hmid).trans
        (ih1 _ _ h)
  | case16 ops c hNone ih =>
    intro c' h
    simp only [buildOps, hNone, Bind.bind, Except.bind] at h
    exact Except.noConfusion h
  | case17 ops c label hSome ih =>
    intro c' h
    simp only [buildOps, hSome, Bind.bind, Except.bind] at h
    exact ((insertContainsBreak_preserves _ _).trans
      (push_preserves (by rfl) _)).trans (ih _ _ h)
  | case18 ops c start finish stepSize loopVar body ih1 ih2 =>
    intro c' h
    simp only [buildOps, Bind.bind, Except.bind] at h
    split at h
    · exact Except.noConfusion h
    · next mid hmid =>
      exact (forEach_preserves (hf_of_ih ih2) hmid).trans (ih1 _ _ h)
  | case19 ops c lhs rhs ih =>
    intro c' h
    simp only [buildOps, Bind.bind, Except.bind] at h
    split at h
    · exact Except.noConfusion h
    · next mid hmid =>
      exact (assert_preserves hmid).trans (ih _ _ h)
  | case20 ops c lhs rhs ih =>
    intro c' h
    simp only [buildOps, Bind.bind, Except.bind] at h
    split at h
    · exact Except.noConfusion h
    · next mid hmid =>
      exact (assert_preserves hmid).trans (ih _ _ h)
  | case21 ops c lhs rhs ih =>
    intro c' h
    simp only [buildOps, Bind.bind, Except.bind] at h
    split at h
    · exact Except.noConfusion h
    · next mid hmid =>
      exact (assert_preserves hmid).trans (ih _ _ h)
  | case22 ops c lhs rhs ih =>
    intro c' h
    simp only [buildOps, Bind.bind, Except.bind] at h
    split at h
    · exact Except.noConfusion h
    · next mid hmid =>
      exact (assert_preserves hmid).trans (ih _ _ h)
  | case23 ops c ptr len size ih =>
    intro c' h
    simp only [buildOps, Bind.bind, Except.bind] at h
    exact (alloc_preserves ptr len size c).trans (ih _ _ h)
  | case24 ops c dst len src ih =>
    intro c' h
    simp only [buildOps, Bind.bind, Except.bind] at h
    exact push_case (by rfl) ih h
  | case25 ops c x x1 hno ih =>
    intro c' h
    cases x with
    | dyn p plen =>
      cases x1 with
      | var v => exact (hno p plen v rfl rfl).elim
      | const n =>
        simp only [buildOps, Bind.bind, Except.bind] at h
        exact Except.noConfusion h
    | fixed =>
      cases x1 <;>
        · simp only [buildOps, Bind.bind, Except.bind] at h
          exact Except.noConfusion h
  | case26 ops c src dst len ih =>
    intro c' h
    simp only [buildOps, Bind.bind, Except.bind] at h
    exact push_case (by rfl) ih h
  | case27 ops c src x hno ih =>
    intro c' h
    cases x with
    | dyn p plen => exact (hno p plen rfl).elim
    | fixed =>
      simp only [buildOps, Bind.bind, Except.bind] at h
      exact Except.noConfusion h
  | case28 ops c src dst len ih =>
    intro c' h
    simp only [buildOps, Bind.bind, Except.bind] at h
    exact push_case (by rfl) ih h
  | case29 ops c src x hno ih =>
    intro c' h
    cases x with
    | dyn p plen => exact (hno p plen rfl).elim
    | fixed =>
      simp only [buildOps, Bind.bind, Except.bind] at h
      exact Except.noConfusion h
  | case30 ops c dst src ih =>
    intro c' h
    simp only [buildOps, Bind.bind, Except.bind] at h
    exact Except.noConfusion h
  | case31 ops c dst src ih =>
    intro c' h
    simp only [buildOps, Bind.bind, Except.bind] at h
    exact Except.noConfusion h
  | case32 ops c dst src len ih =>
    intro c' h
    simp only [buildOps, Bind.bind, Except.bind] at h
    exact Except.noConfusion h
  | case33 ops c dst bits ih =>
    intro c' h
    simp only [buildOps, Bind.bind, Except.bind] at h
    exact Except.noConfusion h
  | case34 ops c dst lhs rhs ih =>
    intro c' h
    simp only [buildOps, Bind.bind, Except.bind] at h
    exact Except.noConfusion h
  | case35 ops c dst lhs rhs ih =>
    intro c' h
    simp only [buildOps, Bind.bind, Except.bind] at h
    exact Except.noConfusion h
  | case36 ops c ih =>
    intro c' h
    simp only [buildOps, Bind.bind, Except.bind] at h
    exact push_case (by rfl) ih h

/-! ### Corollaries of the preservation invariant -/

lemma heapInit_blocks (c : AsmCompiler) : (heapInit c).blocks = c.blocks := by
  rw [heapInit]
  split <;> rfl

lemma buildOps_blocks_le {ops : List DslIR} {c c' : AsmCompiler}
    (h : buildOps ops c = .ok c') : c.blocks.length ≤ c'.blocks.length :=
  (buildOps_preserves ops c c' h).2.1

lemma build_blocks_le {ops : List DslIR} {c c' : AsmCompiler}
    (h : AsmCompiler.build ops c = .ok c') :
    c.blocks.length ≤ c'.blocks.length := by
  rw [AsmCompiler.build] at h
  have := buildOps_blocks_le h
  rwa [heapInit_blocks] at this

lemma basicBlock_blockLabel (c : AsmCompiler) :
    c.basicBlock.blockLabel = c.blocks.length + 1 := by
  simp [AsmCompiler.basicBlock, AsmCompiler.blockLabel]

lemma heapInit_basicBlock (c : AsmCompiler) :
    heapInit c.basicBlock = c.basicBlock :=
  heapInit_of_blocks_ne_nil (basicBlock_blocks_ne_nil c)

/-- C9: pushing an instruction into a block by label (the patch step used
for branch and jump targets) succeeds exactly when the label is a valid
index into the block list, and otherwise aborts compilation immediately with
an error naming the missing label. -/
theorem c9_push_to_block_label_check :
    ∀ (label : Nat) (i : AsmInstruction) (c : AsmCompiler),
      ((∃ c', AsmCompiler.pushToBlock label i c = .ok c') ↔
        label < c.blockCount) ∧
      (c.blockCount ≤ label →
        AsmCompiler.pushToBlock label i c = .error (.missingBlock label)) := by
  intro label i c
  rw [AsmCompiler.blockCount]
  constructor
  · constructor
    · rintro ⟨c', hc⟩
      rw [AsmCompiler.pushToBlock] at hc
      split at hc
      · omega
      · split at hc
        · omega
        · exact Except.noConfusion hc
    · intro hlt
      rw [AsmCompiler.pushToBlock]
      split
      · exact ⟨_, rfl⟩
      · split
        · exact ⟨_, rfl⟩
        · omega
  · intro hge
    rw [AsmCompiler.pushToBlock]
    split
    · omega
    · split
      · omega
      · rfl

theorem c9_push_to_block_label_check_witness :
    AsmCompiler.pushToBlock 5 .Trap AsmCompiler.new
      = .error (.missingBlock 5) :=
  (c9_push_to_block_label_check 5 .Trap AsmCompiler.new).2 (by decide)

/-- C8: every unsupported IR operation and every malformed operand variant
makes `build` abort immediately with an error naming the offending
operation, regardless of the remaining operations and the current state; no
instructions are produced for it. -/
theorem c8_unsupported_abort :
    ∀ (rest : List DslIR) (c : AsmCompiler) (a : Array) (ft f2 : Felt)
      (vr v2 : Var) (u : Usize) (p : Ptr) (n : Nat),
      AsmCompiler.build (.num2BitsF a ft :: rest) c
        = .error (.unimplemented "Num2BitsF") ∧
      AsmCompiler.build (.num2BitsV a vr :: rest) c
        = .error (.unimplemented "Num2BitsV") ∧
      AsmCompiler.build (.reverseBitsLen vr v2 n :: rest) c
        = .error (.unimplemented "ReverseBitsLen") ∧
      AsmCompiler.build (.twoAdicGenerator ft n :: rest) c
        = .error (.unimplemented "TwoAdicGenerator") ∧
      AsmCompiler.build (.expUsizeV vr v2 u :: rest) c
        = .error (.unimplemented "ExpUsizeV") ∧
      AsmCompiler.build (.expUsizeF ft f2 u :: rest) c
        = .error (.unimplemented "ExpUsizeF") ∧
      AsmCompiler.build (.hintBitsU .fixed (.var vr) :: rest) c
        = .error (.unimplemented "HintBitsU") ∧
      AsmCompiler.build (.hintBitsU (.dyn p (.const n)) (.const n) :: rest) c
        = .error (.unimplemented "HintBitsU") ∧
      AsmCompiler.build (.hintBitsF .fixed ft :: rest) c
        = .error (.unimplemented "HintBitsF") ∧
      AsmCompiler.build (.hintBitsV .fixed vr :: rest) c
        = .error (.unimplemented "HintBitsV") := by
  intro rest c a ft f2 vr v2 u p n
  refine ⟨?_, ?_, ?_, ?_, ?_, ?_, ?_, ?_, ?_, ?_⟩ <;>
    simp only [AsmCompiler.build, buildOps, Bind.bind, Except.bind]

/-- The nested-loop program exercising a `break` in the outer loop's body
emitted after the inner loop has finished compiling. -/
def c1ops : List DslIR :=
  [.forLoop (.const 0) (.const 2) 1 ⟨0⟩
    [.forLoop (.const 0) (.const 2) 1 ⟨1⟩ [], .breakOp]]

/-- The compiler state produced by building `c1ops` from a fresh compiler. -/
def c1result : AsmCompiler :=
  { blocks :=
      [[.ImmF HEAP_PTR ((STACK_SIZE + 4 : Nat) : F), .ImmF (-17) 0, .j 5],
       [.ImmF (-20) 0, .j 3],
       [.BneIInc 2 (-20) ((2 : Nat) : F)],
       [.BneI 2 (-20) ((2 : Nat) : F)],
       [.Break 1, .BneIInc 1 (-17) ((2 : Nat) : F)],
       [.BneI 1 (-17) ((2 : Nat) : F)]],
    cur := [], breakLabel := some 1, breakLabelMap := [(1, 4), (0, 6)],
    breakCounter := 2, containsBreak := [4], functionLabels := [] }

lemma c1_build_eq : AsmCompiler.build c1ops AsmCompiler.new = .ok c1result := by
  simp [c1ops, c1result, AsmCompiler.build, buildOps, heapInit,
    heapInitInstr, AsmCompiler.new, AsmCompiler.blockLabel, AsmCompiler.push,
    AsmCompiler.basicBlock, AsmCompiler.newBreakLabel,
    AsmCompiler.insertContainsBreak, AsmCompiler.pushToBlock,
    ForCompiler.forEach, ForCompiler.setLoopVar,
    ForCompiler.jumpToLoopBody, ForCompiler.jumpToLoopBodyInc,
    ForCompiler.condBranch, ForCompiler.incBranch,
    IfCompiler.thenBranch, IfCompiler.thenOrElse, IfCompiler.branch,
    rewriteBreaks, rewriteBlock, rewriteInstr, Bind.bind, Except.bind,
    List.foldl, List.length, List.set, List.map, List.append_eq,
    List.nil_append, List.cons_append, List.mem_cons, List.mem_singleton,
    Var.fp, STACK_START_OFFSET]

/-- C1: refuted on the code.  Compiling `c1ops` from a fresh compiler
succeeds, but the `break` emitted in the outer loop's body after the inner
loop finished compiling resolves to the stale break label of the finished
inner loop (label 1, mapped to block 4 in the break-label map), so the outer
loop's rewrite pass (which rewrites its own label 0) leaves one raw,
unresolved `Break` instruction in block 4 of the final block list instead of
rewriting it into an unconditional jump to the outer loop's after-block
(block 6). -/
theorem c1_break_stale_label :
    (AsmCompiler.build c1ops AsmCompiler.new).map breakInstrCount
        = .ok 1 ∧
    (AsmCompiler.build c1ops AsmCompiler.new).map (fun s => s.blocks[4]?)
        = .ok (some [.Break 1, .BneIInc 1 (Var.fp ⟨0⟩) ((2 : Nat) : F)]) ∧
    (AsmCompiler.build c1ops AsmCompiler.new).map (fun s => s.breakLabelMap)
        = .ok [(1, 4), (0, 6)] := by
  rw [c1_build_eq]
  refine ⟨?_, ?_, ?_⟩ <;> rfl

/-- C3: compiling an `If` with empty else branch creates a then-block,
compiles the then-body into it, creates an after-block, and patches the
branching block with exactly one conditional branch to the after-block on
the negated condition: an equality test compiles to a branch-if-not-equal
opcode and an inequality test to a branch-if-equal opcode, for both register
and immediate right-hand sides. -/
theorem c3_if_empty_else_negated_branch :
    ∀ (l r : Var) (k : F) (thn rest : List DslIR) (c s1 : AsmCompiler),
      AsmCompiler.build thn c.basicBlock = .ok s1 →
      (buildOps (.ifEq l r thn [] :: rest) c
          = Except.bind
              (AsmCompiler.pushToBlock c.blockLabel
                (.Bne s1.basicBlock.blockLabel l.fp r.fp) s1.basicBlock)
              (buildOps rest) ∧
        buildOps (.ifNe l r thn [] :: rest) c
          = Except.bind
              (AsmCompiler.pushToBlock c.blockLabel
                (.Beq s1.basicBlock.blockLabel l.fp r.fp) s1.basicBlock)
              (buildOps rest) ∧
        buildOps (.ifEqI l k thn [] :: rest) c
          = Except.bind
              (AsmCompiler.pushToBlock c.blockLabel
                (.BneI s1.basicBlock.blockLabel l.fp k) s1.basicBlock)
              (buildOps rest) ∧
        buildOps (.ifNeI l k thn [] :: rest) c
          = Except.bind
              (AsmCompiler.pushToBlock c.blockLabel
                (.BeqI s1.basicBlock.blockLabel l.fp k) s1.basicBlock)
              (buildOps rest)) ∧
      (∀ i : AsmInstruction, ∃ b : BasicBlock,
        s1.basicBlock.blocks[c.blockLabel]? = some b ∧
        AsmCompiler.pushToBlock c.blockLabel i s1.basicBlock
          = .ok { s1.basicBlock with
              blocks := s1.basicBlock.blocks.set c.blockLabel (b ++ [i]) }) := by
  intro l r k thn rest c s1 hthn
  rw [AsmCompiler.build, heapInit_basicBlock] at hthn
  have hlt : c.blockLabel < s1.basicBlock.blocks.length := by
    have h1 := buildOps_blocks_le hthn
    simp only [AsmCompiler.basicBlock, AsmCompiler.blockLabel,
      List.length_append, List.length_cons, List.length_nil] at h1 ⊢
    omega
  constructor
  · refine ⟨?_, ?_, ?_, ?_⟩ <;>
      simp only [buildOps, List.isEmpty_nil, if_true, IfCompiler.thenBranch,
        heapInit_basicBlock, hthn, IfCompiler.branch, Bind.bind, Except.bind]
  · intro i
    refine ⟨s1.basicBlock.blocks[c.blockLabel], ?_, ?_⟩
    · exact (List.getElem?_eq_getElem hlt)
    · rw [AsmCompiler.pushToBlock, dif_pos hlt]

theorem c3_if_empty_else_negated_branch_witness :
    buildOps [.ifEq ⟨0⟩ ⟨0⟩ [] []] AsmCompiler.new
      = Except.bind
          (AsmCompiler.pushToBlock AsmCompiler.new.blockLabel
            (.Bne AsmCompiler.new.basicBlock.basicBlock.blockLabel
              (Var.fp ⟨0⟩) (Var.fp ⟨0⟩))
            AsmCompiler.new.basicBlock.basicBlock)
          (buildOps []) :=
  ((c3_if_empty_else_negated_branch ⟨0⟩ ⟨0⟩ 0 [] [] AsmCompiler.new
    AsmCompiler.new.basicBlock
    (by simp [AsmCompiler.build, buildOps, heapInit, AsmCompiler.basicBlock,
      AsmCompiler.new, AsmCompiler.blockLabel])).1).1

/-- C6: compiling an `If` with a non-empty else branch patches the branching
block with a branch to the else-block on the negated condition, and the
then-body's terminal block receives an unconditional jump to the freshly
created after-block, so both paths converge at that same after-block. -/
theorem c6_if_then_else_convergence :
    ∀ (l r : Var) (k : F) (thn els rest : List DslIR) (c s1 s3 : AsmCompiler),
      els ≠ [] →
      AsmCompiler.build thn c.basicBlock = .ok s1 →
      AsmCompiler.build els s1.basicBlock = .ok s3 →
      (buildOps (.ifEq l r thn els :: rest) c
          = Except.bind
              (Except.bind
                (AsmCompiler.pushToBlock c.blockLabel
                  (.Bne s1.basicBlock.blockLabel l.fp r.fp) s3)
                (fun s4 => AsmCompiler.pushToBlock s1.blockLabel
                  (.j s4.basicBlock.blockLabel) s4.basicBlock))
              (buildOps rest) ∧
        buildOps (.ifNe l r thn els :: rest) c
          = Except.bind
              (Except.bind
                (AsmCompiler.pushToBlock c.blockLabel
                  (.Beq s1.basicBlock.blockLabel l.fp r.fp) s3)
                (fun s4 => AsmCompiler.pushToBlock s1.blockLabel
                  (.j s4.basicBlock.blockLabel) s4.basicBlock))
              (buildOps rest) ∧
        buildOps (.ifEqI l k thn els :: rest) c
          = Except.bind
              (Except.bind
                (AsmCompiler.pushToBlock c.blockLabel
                  (.BneI s1.basicBlock.blockLabel l.fp k) s3)
                (fun s4 => AsmCompiler.pushToBlock s1.blockLabel
                  (.j s4.basicBlock.blockLabel) s4.basicBlock))
              (buildOps rest) ∧
        buildOps (.ifNeI l k thn els :: rest) c
          = Except.bind
              (Except.bind
                (AsmCompiler.pushToBlock c.blockLabel
                  (.BeqI s1.basicBlock.blockLabel l.fp k) s3)
                (fun s4 => AsmCompiler.pushToBlock s1.blockLabel
                  (.j s4.basicBlock.blockLabel) s4.basicBlock))
              (buildOps rest)) ∧
      (∃ (s4 : AsmCompiler) (bThen : BasicBlock),
        AsmCompiler.pushToBlock c.blockLabel
            (.Bne s1.basicBlock.blockLabel l.fp r.fp) s3 = .ok s4 ∧
        s4.basicBlock.blocks[s1.blockLabel]? = some bThen ∧
        AsmCompiler.pushToBlock s1.blockLabel
            (.j s4.basicBlock.blockLabel) s4.basicBlock
          = .ok { s4.basicBlock with
              blocks := s4.basicBlock.blocks.set s1.blockLabel
                (bThen ++ [.j s4.basicBlock.blockLabel]) }) := by
  intro l r k thn els rest c s1 s3 hne hthn hels
  rw [AsmCompiler.build, heapInit_basicBlock] at hthn hels
  have hmono1 := buildOps_blocks_le hthn
  have hmono2 := buildOps_blocks_le hels
  simp only [AsmCompiler.basicBlock, List.length_append, List.length_cons,
    List.length_nil] at hmono1 hmono2
  have hlt1 : c.blockLabel < s3.blocks.length := by
    simp only [AsmCompiler.blockLabel]
    omega
  have hEmpty : els.isEmpty = false := by
    cases els with
    | nil => exact absurd rfl hne
    | cons a t => rfl
  constructor
  · refine ⟨?_, ?_, ?_, ?_⟩ <;>
      simp only [buildOps, hEmpty, Bool.false_eq_true, if_false,
        IfCompiler.thenOrElse, heapInit_basicBlock, hthn, hels,
        IfCompiler.branch, Bind.bind, Except.bind]
  · have h4 : AsmCompiler.pushToBlock c.blockLabel
        (.Bne s1.basicBlock.blockLabel l.fp r.fp) s3
        = .ok { s3 with blocks := (s3.blocks.set c.blockLabel
            (s3.blocks[c.blockLabel]
              ++ [.Bne s1.basicBlock.blockLabel l.fp r.fp])) } := by
      rw [AsmCompiler.pushToBlock, dif_pos hlt1]
    set S4 : AsmCompiler := { s3 with blocks := (s3.blocks.set c.blockLabel
        (s3.blocks[c.blockLabel]
          ++ [.Bne s1.basicBlock.blockLabel l.fp r.fp])) } with hS4
    have hlt2 : s1.blockLabel < S4.basicBlock.blocks.length := by
      simp only [hS4, AsmCompiler.basicBlock, AsmCompiler.blockLabel,
        List.length_append, List.length_set, List.length_cons,
        List.length_nil]
      omega
    refine ⟨S4, S4.basicBlock.blocks[s1.blockLabel], h4,
      List.getElem?_eq_getElem hlt2, ?_⟩
    rw [AsmCompiler.pushToBlock, dif_pos hlt2]

lemma rewriteInstr_idem (bl al : Nat) (i : AsmInstruction) :
    rewriteInstr bl al (rewriteInstr bl al i) = rewriteInstr bl al i := by
  cases i with
  | Break l =>
    by_cases h : l = bl <;> simp [rewriteInstr, h]
  | _ => rfl

lemma rewriteBlock_idem (bl al : Nat) (b : BasicBlock) :
    rewriteBlock bl al (rewriteBlock bl al b) = rewriteBlock bl al b := by
  simp only [rewriteBlock, List.map_map]
  exact List.map_congr_left fun i _ => rewriteInstr_idem bl al i

/-- After the deferred break rewriting, every block is either untouched or
the image of the original block under the rewrite. -/
lemma rewriteBreaks_getElem? (bl al : Nat) (c : AsmCompiler) (idx : Nat) :
    (rewriteBreaks bl al c).blocks[idx]? = c.blocks[idx]? ∨
    (rewriteBreaks bl al c).blocks[idx]?
      = (c.blocks[idx]?).map (rewriteBlock bl al) := by
  rw [rewriteBreaks]
  generalize c.containsBreak = L
  induction L generalizing c with
  | nil => exact Or.inl rfl
  | cons blk L ih =>
    rw [List.foldl_cons]
    have hstep :
        (if h : blk < c.blocks.length then
          { c with blocks := c.blocks.set blk (rewriteBlock bl al c.blocks[blk]) }
        else if blk = c.blocks.length then
          { c with cur := rewriteBlock bl al c.cur }
        else c).blocks[idx]? = c.blocks[idx]? ∨
        (if h : blk < c.blocks.length then
          { c with blocks := c.blocks.set blk (rewriteBlock bl al c.blocks[blk]) }
        else if blk = c.blocks.length then
          { c with cur := rewriteBlock bl al c.cur }
        else c).blocks[idx]?
          = (c.blocks[idx]?).map (rewriteBlock bl al) := by
      split
      · next h =>
        by_cases hbi : blk = idx
        · subst hbi
          right
          simp [List.getElem?_set_self, h, List.getElem?_eq_getElem h]
        · left
          simp [List.getElem?_set_ne hbi]
      · split
        · exact Or.inl rfl
        · exact Or.inl rfl
    rcases ih _ with h1 | h1 <;> rcases hstep with h2 | h2
    · exact Or.inl (h1.trans h2)
    · exact Or.inr (h1.trans h2)
    · rw [h1, h2]
      right
      rfl
    · rw [h1, h2]
      right
      cases hc : c.blocks[idx]? with
      | none => rfl
      | some b => simp [rewriteBlock_idem]

/-- The state in which a for-loop body starts compiling: loop variable
initialized, fresh break label allocated, fresh loop-body block opened. -/
def ForCompiler.bodyStart (start : Usize) (lv : Var) (c : AsmCompiler) :
    AsmCompiler :=
  AsmCompiler.basicBlock
    { ForCompiler.setLoopVar start lv c with
        breakCounter := (ForCompiler.setLoopVar start lv c).breakCounter + 1,
        breakLabel := some (ForCompiler.setLoopVar start lv c).breakCounter }

/-- The loop-variable step emission at the end of the loop body: the fused
increment-and-branch for unit step, a separate add-immediate otherwise. -/
def ForCompiler.stepEmit (finish : Usize) (stepSize : F) (lv : Var)
    (loopLabel : Nat) (s1 : AsmCompiler) : AsmCompiler :=
  if stepSize = 1 then ForCompiler.jumpToLoopBodyInc finish lv loopLabel s1
  else s1.push (.AddFI lv.fp lv.fp stepSize)

lemma setLoopVar_blocks (start : Usize) (lv : Var) (c : AsmCompiler) :
    (ForCompiler.setLoopVar start lv c).blocks = c.blocks := by
  cases start <;> rfl

lemma setLoopVar_cur_length (start : Usize) (lv : Var) (c : AsmCompiler) :
    (ForCompiler.setLoopVar start lv c).cur.length = c.cur.length + 1 := by
  cases start <;> simp [ForCompiler.setLoopVar, AsmCompiler.push]

lemma stepEmit_blocks (finish : Usize) (stepSize : F) (lv : Var)
    (loopLabel : Nat) (s1 : AsmCompiler) :
    (ForCompiler.stepEmit finish stepSize lv loopLabel s1).blocks
      = s1.blocks := by
  rw [ForCompiler.stepEmit]
  split
  · cases finish <;> rfl
  · rfl

lemma stepEmit_cur (finish : Usize) (stepSize : F) (lv : Var)
    (loopLabel : Nat) (s1 : AsmCompiler) :
    (ForCompiler.stepEmit finish stepSize lv loopLabel s1).cur
      = s1.cur ++ [if stepSize = 1 then ForCompiler.incBranch finish lv loopLabel
                   else .AddFI lv.fp lv.fp stepSize] := by
  rw [ForCompiler.stepEmit]
  split <;> rfl

lemma bodyStart_blocks_length (start : Usize) (lv : Var) (c : AsmCompiler) :
    (ForCompiler.bodyStart start lv c).blocks.length = c.blocks.length + 1 := by
  simp [ForCompiler.bodyStart, AsmCompiler.basicBlock, setLoopVar_blocks]

lemma rewriteBreaks_blocks_length (bl al : Nat) (c : AsmCompiler) :
    (rewriteBreaks bl al c).blocks.length = c.blocks.length := by
  rw [rewriteBreaks]
  generalize c.containsBreak = L
  induction L generalizing c with
  | nil => rfl
  | cons blk L ih =>
    rw [List.foldl_cons]
    refine (ih _).trans ?_
    split
    · simp
    · split <;> rfl

lemma rewriteInstr_condBranch (bl al : Nat) (finish : Usize) (lv : Var)
    (l : Nat) :
    rewriteInstr bl al (ForCompiler.condBranch finish lv l)
      = ForCompiler.condBranch finish lv l := by
  cases finish <;> rfl

lemma rewriteInstr_incBranch (bl al : Nat) (finish : Usize) (lv : Var)
    (l : Nat) :
    rewriteInstr bl al (ForCompiler.incBranch finish lv l)
      = ForCompiler.incBranch finish lv l := by
  cases finish <;> rfl

lemma bodyStart_blocks_ne_nil (start : Usize) (lv : Var) (c : AsmCompiler) :
    (ForCompiler.bodyStart start lv c).blocks ≠ [] := by
  rw [ForCompiler.bodyStart]
  exact basicBlock_blocks_ne_nil _


lemma rewriteBreaks_block_fixed {bl al : Nat} {M : AsmCompiler} {idx : Nat}
    {b : BasicBlock} (hM : M.blocks[idx]? = some b)
    (hfix : rewriteBlock bl al b = b) :
    (rewriteBreaks bl al M).blocks[idx]? = some b := by
  rcases rewriteBreaks_getElem? bl al M idx with h | h <;> rw [h, hM]
  simp [hfix]

lemma rewriteBreaks_block_getLast {bl al : Nat} {M : AsmCompiler} {idx : Nat}
    {b : BasicBlock} {i : AsmInstruction} (hM : M.blocks[idx]? = some b)
    (hlast : b.getLast? = some i) (hfix : rewriteInstr bl al i = i) :
    ∃ b', (rewriteBreaks bl al M).blocks[idx]? = some b' ∧
      b'.getLast? = some i := by
  rcases rewriteBreaks_getElem? bl al M idx with h | h
  · exact ⟨b, by rw [h, hM], hlast⟩
  · refine ⟨rewriteBlock bl al b, by rw [h, hM]; rfl, ?_⟩
    rw [getLast?_rewriteBlock, hlast]
    simp [hfix]

lemma rewriteBreaks_block_len_getLast {bl al : Nat} {M : AsmCompiler}
    {idx : Nat} {b : BasicBlock} {L : Nat} {i : AsmInstruction}
    (hM : M.blocks[idx]? = some b) (hlen : b.length = L)
    (hlast : b.getLast? = some i) (hfix : rewriteInstr bl al i = i) :
    ∃ b', (rewriteBreaks bl al M).blocks[idx]? = some b' ∧
      b'.length = L ∧ b'.getLast? = some i := by
  rcases rewriteBreaks_getElem? bl al M idx with h | h
  · exact ⟨b, by rw [h, hM], hlen, hlast⟩
  · refine ⟨rewriteBlock bl al b, by rw [h, hM]; rfl, ?_, ?_⟩
    · rw [rewriteBlock, List.length_map, hlen]
    · rw [getLast?_rewriteBlock, hlast]
      simp [hfix]

lemma forEach_spec {start finish : Usize} {stepSize : F} {lv : Var}
    {body : List DslIR} {c s1 : AsmCompiler}
    (hbody : AsmCompiler.build body (ForCompiler.bodyStart start lv c)
      = .ok s1) :
    ∃ s' : AsmCompiler,
      ForCompiler.forEach start finish stepSize lv
          (fun _ c' => buildOps body (heapInit c')) c = .ok s' ∧
      s'.blocks.length = s1.blocks.length + 2 ∧
      s'.blocks[s1.blocks.length + 1]?
        = some [ForCompiler.condBranch finish lv (c.blocks.length + 1)] ∧
      (∃ b, s'.blocks[c.blocks.length]? = some b ∧
        b.getLast? = some (.j (s1.blocks.length + 1))) ∧
      (∃ b, s'.blocks[s1.blocks.length]? = some b ∧
        b.length = s1.cur.length + 1 ∧
        b.getLast? = some (if stepSize = 1
          then ForCompiler.incBranch finish lv (c.blocks.length + 1)
          else .AddFI lv.fp lv.fp stepSize)) := by
  have hb2 : buildOps body (ForCompiler.bodyStart start lv c) = .ok s1 := by
    rw [AsmCompiler.build,
      heapInit_of_blocks_ne_nil (bodyStart_blocks_ne_nil start lv c)] at hbody
    exact hbody
  have hlen1 : c.blocks.length + 1 ≤ s1.blocks.length := by
    have := buildOps_blocks_le hb2
    rwa [bodyStart_blocks_length] at this
  rw [ForCompiler.bodyStart] at hb2
  cases hres : ForCompiler.forEach start finish stepSize lv
      (fun _ c' => buildOps body (heapInit c')) c with
  | error e =>
    exfalso
    rw [ForCompiler.forEach, AsmCompiler.newBreakLabel] at hres
    simp only [Bind.bind, Except.bind] at hres
    split at hres
    · next heq =>
      rw [heapInit_of_blocks_ne_nil (basicBlock_blocks_ne_nil _), hb2] at heq
      exact Except.noConfusion heq
    · next v heq =>
      rw [heapInit_of_blocks_ne_nil (basicBlock_blocks_ne_nil _), hb2] at heq
      cases heq
      split at hres
      · next heq2 =>
        rw [AsmCompiler.pushToBlock] at heq2
        split at heq2 <;>
          · split at heq2
            · exact Except.noConfusion heq2
            · next h1 =>
              split at heq2
              · exact Except.noConfusion heq2
              · next h2 =>
                simp only [AsmCompiler.blockLabel, ForCompiler.jumpToLoopBody,
                  ForCompiler.jumpToLoopBodyInc, AsmCompiler.push,
                  AsmCompiler.basicBlock, setLoopVar_blocks,
                  List.length_append, List.length_cons,
                  List.length_nil] at h1
                omega
      · exact Except.noConfusion hres
  | ok s' =>
    refine ⟨s', rfl, ?_⟩
    rw [ForCompiler.forEach, AsmCompiler.newBreakLabel] at hres
    simp only [Bind.bind, Except.bind] at hres
    split at hres
    · exact Except.noConfusion hres
    · next v heq =>
      rw [heapInit_of_blocks_ne_nil (basicBlock_blocks_ne_nil _), hb2] at heq
      cases heq
      split at hres
      · exact Except.noConfusion hres
      · next v2 heq2 =>
        cases hres
        rw [AsmCompiler.pushToBlock] at heq2
        split at heq2
        · next hstep =>
          split at heq2
          · next hlt =>
            injection heq2 with heq3
            subst heq3
            have hcb : c.blocks.length < s1.blocks.length + 1 := by omega
            have hcs : c.blocks.length ≠ s1.blocks.length := by omega
            simp only [if_pos hstep, ForCompiler.jumpToLoopBody,
              ForCompiler.jumpToLoopBodyInc, AsmCompiler.push,
              AsmCompiler.basicBlock, AsmCompiler.blockLabel,
              setLoopVar_blocks, List.length_append, List.length_cons,
              List.length_nil, List.nil_append, List.length_set, Nat.zero_add]
            refine ⟨?_, ?_, ?_, ?_⟩
            · rw [rewriteBreaks_blocks_length]
              simp
            · apply rewriteBreaks_block_fixed
              · simp only [List.getElem?_append, List.length_set,
                  List.length_append, List.length_cons, List.length_nil, Nat.zero_add,
                  lt_self_iff_false, if_false, Nat.sub_self]
                rfl
              · simp [rewriteBlock, rewriteInstr_condBranch]
            · apply rewriteBreaks_block_getLast
              · simp only [List.getElem?_append, List.length_set,
                  List.length_append, List.length_cons, List.length_nil, Nat.zero_add,
                  hcb, if_true]
                rw [List.getElem?_set, if_pos rfl]
                simp only [List.length_append, List.length_cons,
                  List.length_nil, Nat.zero_add]
                rw [if_pos hcb]
              · exact List.getLast?_concat _
              · rfl
            · apply rewriteBreaks_block_len_getLast
              · simp only [List.getElem?_append, List.length_set,
                  List.length_append, List.length_cons, List.length_nil, Nat.zero_add,
                  hcb, if_true]
                rw [List.getElem?_set, if_neg hcs, List.getElem?_append]
                simp only [List.getElem?_append, List.length_append,
                  List.length_cons, List.length_nil, Nat.zero_add,
                  lt_self_iff_false, if_false, Nat.sub_self]
                rw [if_pos (lt_add_one _)]
                rfl
              · simp
              · exact List.getLast?_concat _
              · exact rewriteInstr_incBranch _ _ _ _ _
          · next h1 =>
            exfalso
            split at heq2
            · next h2 =>
              simp only [AsmCompiler.blockLabel, ForCompiler.jumpToLoopBody,
                ForCompiler.jumpToLoopBodyInc, AsmCompiler.push,
                AsmCompiler.basicBlock, setLoopVar_blocks,
                List.length_append, List.length_cons,
                List.length_nil] at h1
              omega
            · exact Except.noConfusion heq2
        · next hstep =>
          split at heq2
          · next hlt =>
            injection heq2 with heq3
            subst heq3
            have hcb : c.blocks.length < s1.blocks.length + 1 := by omega
            have hcs : c.blocks.length ≠ s1.blocks.length := by omega
            simp only [if_neg hstep, ForCompiler.jumpToLoopBody,
              ForCompiler.jumpToLoopBodyInc, AsmCompiler.push,
              AsmCompiler.basicBlock, AsmCompiler.blockLabel,
              setLoopVar_blocks, List.length_append, List.length_cons,
              List.length_nil, List.nil_append, List.length_set, Nat.zero_add]
            refine ⟨?_, ?_, ?_, ?_⟩
            · rw [rewriteBreaks_blocks_length]
              simp
            · apply rewriteBreaks_block_fixed
              · simp only [List.getElem?_append, List.length_set,
                  List.length_append, List.length_cons, List.length_nil, Nat.zero_add,
                  lt_self_iff_false, if_false, Nat.sub_self]
                rfl
              · simp [rewriteBlock, rewriteInstr_condBranch]
            · apply rewriteBreaks_block_getLast
              · simp only [List.getElem?_append, List.length_set,
                  List.length_append, List.length_cons, List.length_nil, Nat.zero_add,
                  hcb, if_true]
                rw [List.getElem?_set, if_pos rfl]
                simp only [List.length_append, List.length_cons,
                  List.length_nil, Nat.zero_add]
                rw [if_pos hcb]
              · exact List.getLast?_concat _
              · rfl
            · apply rewriteBreaks_block_len_getLast
              · simp only [List.getElem?_append, List.length_set,
                  List.length_append, List.length_cons, List.length_nil, Nat.zero_add,
                  hcb, if_true]
                rw [List.getElem?_set, if_neg hcs, List.getElem?_append]
                simp only [List.getElem?_append, List.length_append,
                  List.length_cons, List.length_nil, Nat.zero_add,
                  lt_self_iff_false, if_false, Nat.sub_self]
                rw [if_pos (lt_add_one _)]
                rfl
              · simp
              · exact List.getLast?_concat _
              · rfl
          · next h1 =>
            exfalso
            split at heq2
            · next h2 =>
              simp only [AsmCompiler.blockLabel, ForCompiler.jumpToLoopBody,
                ForCompiler.jumpToLoopBodyInc, AsmCompiler.push,
                AsmCompiler.basicBlock, setLoopVar_blocks,
                List.length_append, List.length_cons,
                List.length_nil] at h1
              omega
            · exact Except.noConfusion heq2

/-- C7: every for-loop compiles to a bottom-tested loop: the original
loop-call block is terminated by an unconditional jump to the loop-condition
block, and the loop-condition block contains exactly the back-branch to the
loop-body's start, checked against the constant or variable end bound, so
first entry also reaches the bottom check. -/
theorem c7_for_bottom_tested :
    ∀ (start finish : Usize) (stepSize : F) (lv : Var)
      (body rest : List DslIR) (c s1 : AsmCompiler),
      AsmCompiler.build body (ForCompiler.bodyStart start lv c) = .ok s1 →
      ∃ s' : AsmCompiler,
        buildOps (.forLoop start finish stepSize lv body :: rest) c
          = buildOps rest s' ∧
        s'.blocks[s1.blocks.length + 1]?
          = some [ForCompiler.condBranch finish lv (c.blocks.length + 1)] ∧
        (∃ b, s'.blocks[c.blocks.length]? = some b ∧
          b.getLast? = some (.j (s1.blocks.length + 1))) := by
  intro start finish stepSize lv body rest c s1 h
  obtain ⟨s', hfe, _, hcond, hcall, _⟩ :=
    @forEach_spec start finish stepSize lv body c s1 h
  refine ⟨s', ?_, hcond, hcall⟩
  simp only [buildOps, hfe, Bind.bind, Except.bind]

theorem c7_for_bottom_tested_witness :
    ∃ s' : AsmCompiler,
      buildOps [.forLoop (.const 0) (.const 2) 1 ⟨0⟩ []] AsmCompiler.new
        = buildOps [] s' ∧
      s'.blocks[(ForCompiler.bodyStart (.const 0) ⟨0⟩
          AsmCompiler.new).blocks.length + 1]?
        = some [ForCompiler.condBranch (.const 2) ⟨0⟩
            (AsmCompiler.new.blocks.length + 1)] ∧
      (∃ b, s'.blocks[AsmCompiler.new.blocks.length]? = some b ∧
        b.getLast? = some (.j ((ForCompiler.bodyStart (.const 0) ⟨0⟩
          AsmCompiler.new).blocks.length + 1))) :=
  c7_for_bottom_tested (.const 0) (.const 2) 1 ⟨0⟩ [] [] AsmCompiler.new
    (ForCompiler.bodyStart (.const 0) ⟨0⟩ AsmCompiler.new)
    (by simp [AsmCompiler.build, buildOps, heapInit, ForCompiler.bodyStart,
      ForCompiler.setLoopVar, AsmCompiler.basicBlock, AsmCompiler.push,
      AsmCompiler.new, AsmCompiler.blockLabel])

/-- C4: in every for-loop compilation with step size exactly one, the
increment-and-branch is fused into a single terminal opcode at the end of
the loop-body's terminal block and no separate increment instruction is
emitted (exactly one instruction is appended to the body's final
instructions); for every other step size, a separate add-immediate of the
step to the loop variable is emitted at the end of the loop body instead. -/
theorem c4_for_step_dispatch :
    ∀ (start finish : Usize) (stepSize : F) (lv : Var)
      (body rest : List DslIR) (c s1 : AsmCompiler),
      AsmCompiler.build body (ForCompiler.bodyStart start lv c) = .ok s1 →
      ∃ (s' : AsmCompiler) (b : BasicBlock),
        buildOps (.forLoop start finish stepSize lv body :: rest) c
          = buildOps rest s' ∧
        s'.blocks[s1.blocks.length]? = some b ∧
        b.length = s1.cur.length + 1 ∧
        (stepSize = 1 →
          b.getLast? = some (ForCompiler.incBranch finish lv
            (c.blocks.length + 1))) ∧
        (stepSize ≠ 1 →
          b.getLast? = some (.AddFI lv.fp lv.fp stepSize)) := by
  intro start finish stepSize lv body rest c s1 h
  obtain ⟨s', hfe, _, _, _, b, hget, hlen, hlast⟩ :=
    @forEach_spec start finish stepSize lv body c s1 h
  refine ⟨s', b, ?_, hget, hlen, ?_, ?_⟩
  · simp only [buildOps, hfe, Bind.bind, Except.bind]
  · intro h1
    rwa [if_pos h1] at hlast
  · intro h1
    rwa [if_neg h1] at hlast

theorem c4_for_step_dispatch_witness :
    ∃ (s' : AsmCompiler) (b : BasicBlock),
      buildOps [.forLoop (.const 0) (.const 2) 1 ⟨0⟩ []] AsmCompiler.new
        = buildOps [] s' ∧
      s'.blocks[(ForCompiler.bodyStart (.const 0) ⟨0⟩
          AsmCompiler.new).blocks.length]? = some b ∧
      b.length = (ForCompiler.bodyStart (.const 0) ⟨0⟩
          AsmCompiler.new).cur.length + 1 ∧
      ((1 : F) = 1 →
        b.getLast? = some (ForCompiler.incBranch (.const 2) ⟨0⟩
          (AsmCompiler.new.blocks.length + 1))) ∧
      ((1 : F) ≠ 1 →
        b.getLast? = some (.AddFI (Var.fp ⟨0⟩) (Var.fp ⟨0⟩) 1)) :=
  c4_for_step_dispatch (.const 0) (.const 2) 1 ⟨0⟩ [] [] AsmCompiler.new
    (ForCompiler.bodyStart (.const 0) ⟨0⟩ AsmCompiler.new)
    (by simp [AsmCompiler.build, buildOps, heapInit, ForCompiler.bodyStart,
      ForCompiler.setLoopVar, AsmCompiler.basicBlock, AsmCompiler.push,
      AsmCompiler.new, AsmCompiler.blockLabel])

def c6wS1 : AsmCompiler := heapInit AsmCompiler.new.basicBlock

def c6wS3 : AsmCompiler :=
  (heapInit c6wS1.basicBlock).push (.ImmF (Var.fp ⟨0⟩) 0)

theorem c6_if_then_else_convergence_witness :
    AsmCompiler.build [] AsmCompiler.new.basicBlock = .ok c6wS1 ∧
    AsmCompiler.build [DslIR.immV ⟨0⟩ 0] c6wS1.basicBlock = .ok c6wS3 ∧
    (∃ (s4 : AsmCompiler) (bThen : BasicBlock),
      AsmCompiler.pushToBlock AsmCompiler.new.blockLabel
          (.Bne c6wS1.basicBlock.blockLabel (Var.fp ⟨0⟩) (Var.fp ⟨1⟩)) c6wS3
        = .ok s4 ∧
      s4.basicBlock.blocks[c6wS1.blockLabel]? = some bThen ∧
      AsmCompiler.pushToBlock c6wS1.blockLabel
          (.j s4.basicBlock.blockLabel) s4.basicBlock
        = .ok { s4.basicBlock with
            blocks := s4.basicBlock.blocks.set c6wS1.blockLabel
              (bThen ++ [.j s4.basicBlock.blockLabel]) }) := by
  have h1 : AsmCompiler.build [] AsmCompiler.new.basicBlock = .ok c6wS1 := by
    simp [AsmCompiler.build, buildOps, c6wS1]
  have h2 : AsmCompiler.build [DslIR.immV ⟨0⟩ 0] c6wS1.basicBlock
      = .ok c6wS3 := by
    simp [AsmCompiler.build, buildOps, c6wS3, Bind.bind, Except.bind]
  exact ⟨h1, h2,
    (c6_if_then_else_convergence ⟨0⟩ ⟨1⟩ 0 [] [.immV ⟨0⟩ 0] []
      AsmCompiler.new c6wS1 c6wS3 (by simp) h1 h2).2⟩

end Sp1Asm
